import Mathlib

/-!
Verification of the sktime series-annotation core: the sparse/dense
representation converters of `sktime/annotation/base/_base.py` and the
binary-segmentation change-point engine of `sktime/annotation/bs.py`.

The Python code is shallowly embedded: pandas series become Lean lists,
integer positions become `ℕ`, labels become `ℤ`, real-valued observations
become `ℚ` (exact arithmetic idealizing the float computation), and every
Python exception becomes an explicit error value of type `AnnError`.
-/

/-- Kinds of Python exceptions raised by the annotation core.
`indexError`  : positional indexing out of bounds (`iloc[-1]` on an empty
                series, or an out-of-range vectorised `iloc` write);
`lengthError` : the `RuntimeError("The length must be greater ...")` guards
                of `sparse_to_dense` (the spec calls these RangeError-kind);
`typeError`   : a Python `TypeError`, e.g. comparing `None` with an integer;
`valueError`  : a Python `ValueError` (empty reduction, bad interval breaks,
                `start` after the first change point, `astype` on NaN);
`windowError` : the `RuntimeError("The change point must be within ...")`
                internal-contract guard of `_cumsum_statistic`;
`divError`    : a Python `ZeroDivisionError`;
`fuelError`   : recursion-fuel exhaustion of the embedding (proved
                unreachable when the fuel is at least the window width). -/
inductive AnnError where
  | indexError
  | lengthError
  | typeError
  | valueError
  | windowError
  | divError
  | fuelError
  deriving DecidableEq, Repr

/-- `true` exactly on `Except.ok` results (the Python call returned
without raising). -/
def exceptOk {ε α : Type} : Except ε α → Bool
  | .ok _ => true
  | .error _ => false

instance {ε α : Type} [DecidableEq ε] [DecidableEq α] : DecidableEq (Except ε α) := fun x y =>
  match x, y with
  | .ok a, .ok b =>
      if h : a = b then .isTrue (by rw [h]) else .isFalse (fun hc => by cases hc; exact h rfl)
  | .error a, .error b =>
      if h : a = b then .isTrue (by rw [h]) else .isFalse (fun hc => by cases hc; exact h rfl)
  | .ok _, .error _ => .isFalse (fun hc => by cases hc)
  | .error _, .ok _ => .isFalse (fun hc => by cases hc)

/-- One row of the segment dataframe: columns `seg_label`, `seg_start`,
`seg_end` of `_base.py` (`end` is a Lean keyword, so the last is `stop`). -/
structure Seg where
  label : ℤ
  start : ℕ
  stop : ℕ
  deriving DecidableEq, Repr

/-- Column `seg_label` of the segment dataframe. -/
def segLabels (f : List Seg) : List ℤ := f.map Seg.label

/-- Column `seg_start` of the segment dataframe. -/
def segStarts (f : List Seg) : List ℕ := f.map Seg.start

/-- Column `seg_end` of the segment dataframe. -/
def segStops (f : List Seg) : List ℕ := f.map Seg.stop

/-- The vectorised positional write `d.iloc[ps] = vs` of pandas: the
pairs are written in order, a later write to the same position winning. -/
def writeAll {α : Type} (d : List α) (ps : List ℕ) (vs : List α) : List α :=
  (ps.zip vs).foldl (fun a pv => a.set pv.1 pv.2) d

/-- Pandas `Series.ffill` on an optional-valued list: `none` cells take the
most recent `some` value to their left (or the incoming `carry`). -/
def ffillAux (carry : Option ℤ) : List (Option ℤ) → List (Option ℤ)
  | [] => []
  | none :: xs => carry :: ffillAux carry xs
  | some v :: xs => some v :: ffillAux (some v) xs

/-- The carry that `ffillAux` propagates out of a list: the last `some`
value, or the incoming carry if there is none. -/
def ffillCarry (carry : Option ℤ) (l : List (Option ℤ)) : Option ℤ :=
  l.foldl (fun a x => match x with | none => a | some v => some v) carry

/-- The changepoint/anomaly (rank-1) branch of
`BaseSeriesAnnotator.sparse_to_dense`: read the last sparse index
(`IndexError` on an empty series), default the length to that index plus
one, reject a length not exceeding it, then write `1` over a zero series
at every sparse position (`IndexError` if a position is out of range). -/
def sparseToDensePoints (p : List ℕ) (length? : Option ℕ) : Except AnnError (List ℤ) :=
  match p.getLast? with
  | none => .error .indexError
  | some final =>
    let len := length?.getD (final + 1)
    if len ≤ final then .error .lengthError
    else if p.any (fun i => len ≤ i) then .error .indexError
    else .ok (p.foldl (fun d i => d.set i 1) (List.replicate len (0 : ℤ)))

/-- The wrap-around of numpy's `astype("int32")`: the value modulo `2^32`,
represented in `[-2^31, 2^31)`. -/
def int32 (v : ℤ) : ℤ := (v + 2 ^ 31) % 2 ^ 32 - 2 ^ 31

/-- The segmentation (rank-2) branch of `BaseSeriesAnnotator.sparse_to_dense`:
read the last `seg_end` (`IndexError` on an empty frame), default the length
to it plus one, reject a length not exceeding it; then over a NaN series
write each `seg_start` with its label cast to int32 and each `seg_end` with
the int32 negation of that cast value (both casts wrap silently), set
position 0 to `-1` if still NaN, forward-fill, convert to int
(`ValueError` if NaN remains; the cast itself is the identity here since
every written value is already in int32 range), restore each `seg_end` to
its int32 label, and clamp the remaining negative values to `-1` (after
which the final `astype("int32")` is again the identity). -/
def sparseToDenseSegments (f : List Seg) (length? : Option ℕ) : Except AnnError (List ℤ) :=
  match (segStops f).getLast? with
  | none => .error .indexError
  | some final =>
    let len := length?.getD (final + 1)
    if len ≤ final then .error .lengthError
    else if (segStarts f).any (fun i => len ≤ i) || (segStops f).any (fun i => len ≤ i) then
      .error .indexError
    else
      let d1 := writeAll (List.replicate len (none : Option ℤ)) (segStarts f)
        ((segLabels f).map (fun v => some (int32 v)))
      let d2 := writeAll d1 (segStops f)
        ((segLabels f).map (fun v => some (int32 (-(int32 v)))))
      let d3 := match d2 with
        | none :: rest => some (-1) :: rest
        | other => other
      match (ffillAux none d3).mapM (fun x => x) with
      | none => .error .valueError
      | some d4 =>
        let d5 := writeAll d4 (segStops f) ((segLabels f).map (fun v => int32 v))
        .ok (d5.map (fun v => if v < 0 then -1 else v))

/-- Result of `BaseSeriesAnnotator.dense_to_sparse`: either a series of
changepoint/anomaly positions or a segment dataframe. -/
inductive Sparse where
  | points (idx : List ℕ)
  | segments (f : List Seg)
  deriving DecidableEq, Repr

/-- `BaseSeriesAnnotator.dense_to_sparse`: if any dense value is 0 the
input is a 0/1 point encoding and the positions holding 1 are returned;
otherwise run boundaries are detected with `diff` (`diff() != 0` marks
starts, position 0 included since its diff is NaN; `diff(-1) != 0` marks
ends, the last position included), each run is labelled by its start value,
and rows labelled `-1` are dropped. -/
def denseToSparse (y : List ℤ) : Sparse :=
  if y.any (fun v => v == 0) then
    Sparse.points ((List.range y.length).filter (fun i => y.getD i 0 == 1))
  else
    let starts := (List.range y.length).filter
      (fun i => i == 0 || !(y.getD i 0 == y.getD (i - 1) 0))
    let stops := (List.range y.length).filter
      (fun i => i + 1 == y.length || !(y.getD i 0 == y.getD (i + 1) 0))
    let rows := (starts.zip stops).map (fun pr => Seg.mk (y.getD pr.1 0) pr.1 pr.2)
    Sparse.segments (rows.filter (fun g => !(g.label == -1)))

/-- `np.min` over a list (`ValueError` on an empty array is signalled by
`none`). -/
def listMin (l : List ℤ) : Option ℤ :=
  match l with
  | [] => none
  | x :: xs => some (xs.foldl min x)

/-- `BaseSeriesAnnotator.change_points_to_segments`. The code compares
`start > breaks.min()` before checking `start is not None`, so an omitted
`start` makes Python raise `TypeError` (`None` is not ordered against an
integer).  A supplied `start` above the minimum change point raises
`ValueError`; otherwise `start` is prepended and `end` appended to the
breaks, `IntervalIndex.from_breaks` rejects a decreasing consecutive pair
(`ValueError`), and the half-open intervals are labelled `1, 2, ...` where
the left endpoint is at least the first change point and `-1` elsewhere.
Each output row is `(left, right, label)`. -/
def changePointsToSegments (points : List ℤ) (start? stop? : Option ℤ) :
    Except AnnError (List (ℤ × ℤ × ℤ)) :=
  match listMin points with
  | none => .error .valueError
  | some mn =>
    match start? with
    | none => .error .typeError
    | some s =>
      if mn < s then .error .valueError
      else
        let breaks : List ℤ := s :: points ++ (match stop? with | some e => [e] | none => [])
        let ivs := breaks.zip breaks.tail
        if ivs.any (fun pr => pr.2 < pr.1) then .error .valueError
        else
          .ok ((ivs.foldl (fun (st : List (ℤ × ℤ × ℤ) × ℕ) iv =>
            if mn ≤ iv.1 then ((iv.1, iv.2, ((st.2 + 1 : ℕ) : ℤ)) :: st.1, st.2 + 1)
            else ((iv.1, iv.2, -1) :: st.1, st.2)) ([], 0)).1.reverse)

/-- `BaseSeriesAnnotator.segments_to_change_points`: densify the segments,
take `diff`, force position 0 to no-change, and return the positions whose
diff is nonzero. -/
def segmentsToChangePoints (f : List Seg) : Except AnnError (List ℕ) :=
  match sparseToDenseSegments f none with
  | .error e => .error e
  | .ok d =>
    .ok ((List.range d.length).filter (fun i => !(i == 0) && !(d.getD i 0 == d.getD (i - 1) 0)))

/-- Dense 0/1 encoding of a set of sparse positions, as the spec words it:
value 1 at each sparse index and 0 elsewhere. -/
def denseIndicator (p : List ℕ) (len : ℕ) : List ℤ :=
  (List.range len).map (fun i => if i ∈ p then 1 else 0)

/-- Maximum of a list of positions (`max(index)` of the spec), 0 on `[]`. -/
def maxList (p : List ℕ) : ℕ := p.foldr max 0

/-- `dense_to_sparse` composed with the points branch of `sparse_to_dense`:
the round trip of the points representation. -/
def roundTrip (p : List ℕ) (len : ℕ) : Option Sparse :=
  (sparseToDensePoints p (some len)).toOption.map denseToSparse

/-- Membership of a position in the (successful) output of
`segments_to_change_points`. -/
def cpContains (f : List Seg) (x : ℕ) : Bool :=
  match segmentsToChangePoints f with
  | .ok l => l.contains x
  | .error _ => false

/-- The segment preceding row `k` of a frame, if any. -/
def prevSeg (f : List Seg) (k : ℕ) : Option Seg :=
  if k = 0 then none else f[k-1]?

/-- A well-formed segment frame: positive labels that fit in a signed
32-bit integer (so the code's `astype("int32")` casts are the identity on
them), `start ≤ end` in each row, and strictly ordered rows leaving room
for gaps (`end + 1 ≤ next start`). -/
def ValidSegs (f : List Seg) : Prop :=
  (∀ g ∈ f, (1 ≤ g.label ∧ g.label < 2 ^ 31) ∧ g.start ≤ g.stop) ∧
    List.Chain' (fun a b => a.stop + 1 ≤ b.start) f

/-- The intended dense expansion of a segment frame, cursor `p` being the
next position to emit: `-1` over the gap before each segment, the label
over the segment itself. -/
def expandFrom : ℕ → List Seg → List ℤ
  | _, [] => []
  | p, g :: gs =>
    List.replicate (g.start - p) (-1) ++ List.replicate (g.stop - g.start + 1) g.label
      ++ expandFrom (g.stop + 1) gs

/-- Run an error-raising computation over a list collecting the results,
stopping at the first raised exception — the Python `for` loop building
`costs` in `_find_change_points`. -/
def mapME (f : ℕ → Except AnnError ℚ) : List ℕ → Except AnnError (List ℚ)
  | [] => .ok []
  | x :: xs =>
    match f x with
    | .error e => .error e
    | .ok v =>
      match mapME f xs with
      | .error e => .error e
      | .ok vs => .ok (v :: vs)

/-- The square of the CUMSUM statistic of
`BinarySegmentation._cumsum_statistic`, as an exact rational.  The code
computes `|w_left * sum(X[s..c]) - w_right * sum(X[c+1..e])|` with
`w_left = sqrt(b / (n*a))` and `w_right = sqrt(a / (n*b))` for
`a = c - s + 1`, `b = e - c`, `n = e - s + 1`; since
`sqrt(b/(n*a)) = b / sqrt(n*a*b)` and `sqrt(a/(n*b)) = a / sqrt(n*a*b)`,
the statistic equals `|b*L - a*R| / sqrt(n*a*b)` and its square is the
rational `(b*L - a*R)^2 / (n*a*b)` computed here.  Threshold comparisons
and argmax positions are transported through the strictly monotone square
root, see `statGT`.  The guard `change_point < start or change_point >=
end` raises `RuntimeError` (here `windowError`); a vanishing weight
denominator would raise `ZeroDivisionError` (here `divError`). -/
def cumsumStatSq (X : List ℚ) (s e c : ℕ) : Except AnnError ℚ :=
  if c < s ∨ e ≤ c then .error .windowError
  else if ((e - s + 1 : ℕ) : ℚ) * ((c - s + 1 : ℕ) : ℚ) = 0 ∨
      ((e - s + 1 : ℕ) : ℚ) * ((e - c : ℕ) : ℚ) = 0 then .error .divError
  else
    .ok ((((e - c : ℕ) : ℚ) * ((X.drop s).take (c - s + 1)).sum -
        ((c - s + 1 : ℕ) : ℚ) * ((X.drop (c + 1)).take (e - c)).sum) ^ 2 /
      (((e - s + 1 : ℕ) : ℚ) * ((c - s + 1 : ℕ) : ℚ) * ((e - c : ℕ) : ℚ)))

/-- `np.max` over a nonempty list of costs (0 on `[]`, never used there). -/
def maxOf : List ℚ → ℚ
  | [] => 0
  | v :: vs => vs.foldl max v

/-- State-passing scan behind `idxOfMax`: current index, best index so
far, best value so far; a strictly larger value updates the best, so the
first occurrence of the maximum wins, as with `np.argmax`. -/
def idxMaxAux (i bi : ℕ) (bv : ℚ) : List ℚ → ℕ × ℚ
  | [] => (bi, bv)
  | v :: vs => if bv < v then idxMaxAux (i + 1) i v vs else idxMaxAux (i + 1) bi bv vs

/-- `np.argmax`: index of the first occurrence of the maximum (0 on `[]`). -/
def idxOfMax : List ℚ → ℕ
  | [] => 0
  | v :: vs => (idxMaxAux 1 0 v vs).1

/-- `sqrt s2 > t` expressed on the squared statistic `s2 ≥ 0`: true when
`t` is negative, and otherwise when `t^2 < s2`.  This is exactly the
comparison `np.max(costs) > threshold` of the code transported through the
square root. -/
def statGT (s2 t : ℚ) : Bool :=
  decide (t < 0) || decide (t ^ 2 < s2)

/-- Fuel-indexed embedding of `BinarySegmentation._find_change_points` on
the inclusive window `[s, e]`: stop on a window of width < 1; otherwise
score every candidate in `[s, e)`, and if the best score beats the
threshold record the best candidate and recurse on `[s, c]` and
`[c+1, e]`.  The returned list is in discovery order (found point first,
then the left subtree's points, then the right subtree's).  The fuel only
forces structural recursion; `e - s` is always enough. -/
def findCPAux (X : List ℚ) (t : ℚ) : ℕ → ℕ → ℕ → Except AnnError (List ℕ)
  | 0, s, e => if e ≤ s then .ok [] else .error .fuelError
  | fuel + 1, s, e =>
    if e ≤ s then .ok []
    else
      match mapME (cumsumStatSq X s e) (List.range' s (e - s)) with
      | .error err => .error err
      | .ok costs =>
        if statGT (maxOf costs) t then
          match findCPAux X t fuel s (s + idxOfMax costs),
              findCPAux X t fuel (s + idxOfMax costs + 1) e with
          | .ok left, .ok right => .ok ((s + idxOfMax costs) :: (left ++ right))
          | .error err, _ => .error err
          | .ok _, .error err => .error err
        else .ok []

/-- `BinarySegmentation._find_change_points` on the window `[s, e]`. -/
def findChangePoints (X : List ℚ) (s e : ℕ) (t : ℚ) : Except AnnError (List ℕ) :=
  findCPAux X t (e - s) s e

/-- `BinarySegmentation._predict` after a (no-op) fit: search the whole
series on the window `[0, len - 1]` and sort the found change points. -/
def predictBS (X : List ℚ) (t : ℚ) : Except AnnError (List ℕ) :=
  (findChangePoints X 0 (X.length - 1) t).map (fun l => List.insertionSort (· ≤ ·) l)

/-- Number of change points found by the search (0 if it raised). -/
def numCP (X : List ℚ) (s e : ℕ) (t : ℚ) : ℕ :=
  match findChangePoints X s e t with
  | .ok l => l.length
  | .error _ => 0

/-- The marks that the two vectorised writes of `sparse_to_dense` leave in
the region covered by one segment whose gap has already been emitted: the
label at the segment's start, the negated label at its end (which
overwrites the start mark when the segment has one element), `NaN`
in between. -/
def segBlock (g : Seg) : List (Option ℤ) :=
  if g.start = g.stop then [some (-g.label)]
  else some g.label :: (List.replicate (g.stop - g.start - 1) none ++ [some (-g.label)])

/-- Normal form of the marked array produced by the two write passes of
the segmentation branch of `sparse_to_dense`, for an ordered frame:
`NaN` over each gap, then the block of marks of each segment. -/
def marksFrom : ℕ → List Seg → List (Option ℤ)
  | _, [] => []
  | p, g :: gs => List.replicate (g.start - p) none ++ segBlock g ++ marksFrom (g.stop + 1) gs

/-- Well-formedness of a segment frame relative to a cursor `p`:
each segment starts no earlier than the cursor, has `start ≤ end` and a
positive int32-representable label, and the rest of the frame is
well-formed past its end.  This is the recursive counterpart of
`ValidSegs`. -/
def ValidFrom (p : ℕ) : List Seg → Prop
  | [] => True
  | g :: gs => p ≤ g.start ∧ g.start ≤ g.stop ∧ (1 ≤ g.label ∧ g.label < 2 ^ 31) ∧
      ValidFrom (g.stop + 1) gs

/-- The first position after the region covered by a frame started at
cursor `p` (so `p` itself if the frame is empty). -/
def cursorAfter (p : ℕ) : List Seg → ℕ
  | [] => p
  | g :: gs => cursorAfter (g.stop + 1) gs

/-- The label the dense expansion assigns to position `q`: the label of
the segment containing `q`, and `-1` if no segment does. -/
def segLabelAt : List Seg → ℕ → ℤ
  | [], _ => -1
  | g :: gs, q => if q < g.start then -1 else if q ≤ g.stop then g.label else segLabelAt gs q

/-! ### General lemmas about the embedded operations -/

theorem exceptOk_iff {ε α : Type} (r : Except ε α) :
    exceptOk r = true ↔ ∃ v, r = .ok v := by
  cases r <;> simp [exceptOk]

theorem cumsumStatSq_isOk (X : List ℚ) {s e c : ℕ} (h1 : s ≤ c) (h2 : c < e) :
    exceptOk (cumsumStatSq X s e c) = true := by
  have hna : ((e - s + 1 : ℕ) : ℚ) * ((c - s + 1 : ℕ) : ℚ) ≠ 0 :=
    mul_ne_zero (Nat.cast_ne_zero.mpr (by omega)) (Nat.cast_ne_zero.mpr (by omega))
  have hnb : ((e - s + 1 : ℕ) : ℚ) * ((e - c : ℕ) : ℚ) ≠ 0 :=
    mul_ne_zero (Nat.cast_ne_zero.mpr (by omega)) (Nat.cast_ne_zero.mpr (by omega))
  unfold cumsumStatSq
  rw [if_neg (by omega : ¬(c < s ∨ e ≤ c)), if_neg (by push_neg; exact ⟨hna, hnb⟩)]
  rfl

theorem mapME_ok_of_forall {f : ℕ → Except AnnError ℚ} :
    ∀ {l : List ℕ}, (∀ a ∈ l, exceptOk (f a) = true) →
      ∃ out, mapME f l = .ok out ∧ out.length = l.length
  | [], _ => ⟨[], rfl, rfl⟩
  | x :: xs, h => by
    obtain ⟨v, hv⟩ := (exceptOk_iff _).mp (h x (List.mem_cons_self x xs))
    obtain ⟨out, hout, hlen⟩ :=
      mapME_ok_of_forall (fun a ha => h a (List.mem_cons_of_mem _ ha))
    exact ⟨v :: out, by simp [mapME, hv, hout], by simp [hlen]⟩

theorem idxMaxAux_fst_lt :
    ∀ (vs : List ℚ) (i bi : ℕ) (bv : ℚ), bi < i → (idxMaxAux i bi bv vs).1 < i + vs.length
  | [], _, _, _, h => by simpa [idxMaxAux] using h
  | v :: vs, i, bi, bv, h => by
    unfold idxMaxAux
    split
    · have := idxMaxAux_fst_lt vs (i + 1) i v (Nat.lt_succ_self i)
      simp only [List.length_cons]
      omega
    · have := idxMaxAux_fst_lt vs (i + 1) bi bv (by omega)
      simp only [List.length_cons]
      omega

theorem idxOfMax_lt_length : ∀ {l : List ℚ}, l ≠ [] → idxOfMax l < l.length
  | [], h => absurd rfl h
  | v :: vs, _ => by
    have := idxMaxAux_fst_lt vs 1 0 v Nat.one_pos
    simp only [idxOfMax, List.length_cons]
    omega

theorem statGT_mono {s2 t1 t2 : ℚ} (h : t1 ≤ t2) (hgt : statGT s2 t2 = true) :
    statGT s2 t1 = true := by
  unfold statGT at hgt ⊢
  simp only [Bool.or_eq_true, decide_eq_true_eq] at hgt ⊢
  rcases hgt with h2 | h2
  · exact Or.inl (lt_of_le_of_lt h h2)
  · by_cases h1 : t1 < 0
    · exact Or.inl h1
    · refine Or.inr (lt_of_le_of_lt ?_ h2)
      exact pow_le_pow_left₀ (le_of_not_lt h1) h 2

theorem findCPAux_isOk (X : List ℚ) (t : ℚ) :
    ∀ fuel s e, e - s ≤ fuel → exceptOk (findCPAux X t fuel s e) = true := by
  intro fuel
  induction fuel with
  | zero =>
    intro s e h
    have hse : e ≤ s := by omega
    simp [findCPAux, hse, exceptOk]
  | succ fuel ih =>
    intro s e h
    by_cases hse : e ≤ s
    · simp [findCPAux, hse, exceptOk]
    · have hall : ∀ a ∈ List.range' s (e - s), exceptOk (cumsumStatSq X s e a) = true := by
        intro a ha
        rw [List.mem_range'_1] at ha
        exact cumsumStatSq_isOk X (by omega) (by omega)
      obtain ⟨costs, hc, hlen⟩ := mapME_ok_of_forall hall
      have hcnil : costs ≠ [] := by
        intro hnil
        rw [hnil] at hlen
        simp [List.length_range'] at hlen
        omega
      have hidx : idxOfMax costs < e - s := by
        have := idxOfMax_lt_length hcnil
        rw [hlen, List.length_range'] at this
        exact this
      simp only [findCPAux, if_neg hse, hc]
      by_cases hgt : statGT (maxOf costs) t = true
      · rw [if_pos hgt]
        obtain ⟨l1, hl1⟩ := (exceptOk_iff _).mp (ih s (s + idxOfMax costs) (by omega))
        obtain ⟨l2, hl2⟩ := (exceptOk_iff _).mp (ih (s + idxOfMax costs + 1) e (by omega))
        rw [hl1, hl2]
        rfl
      · rw [if_neg hgt]
        rfl

theorem findCPAux_len_anti (X : List ℚ) {t1 t2 : ℚ} (ht : t1 ≤ t2) :
    ∀ fuel s e l1 l2, findCPAux X t1 fuel s e = .ok l1 →
      findCPAux X t2 fuel s e = .ok l2 → l2.length ≤ l1.length := by
  intro fuel
  induction fuel with
  | zero =>
    intro s e l1 l2 h1 h2
    by_cases hse : e ≤ s
    · simp only [findCPAux, if_pos hse, Except.ok.injEq] at h1 h2
      subst h1; subst h2
      exact le_rfl
    · simp [findCPAux, hse] at h1
  | succ fuel ih =>
    intro s e l1 l2 h1 h2
    by_cases hse : e ≤ s
    · simp only [findCPAux, if_pos hse, Except.ok.injEq] at h1 h2
      subst h1; subst h2
      exact le_rfl
    · simp only [findCPAux, if_neg hse] at h1 h2
      cases hmap : mapME (cumsumStatSq X s e) (List.range' s (e - s)) with
      | error err => simp [hmap] at h1
      | ok costs =>
        simp only [hmap] at h1 h2
        by_cases hgt2 : statGT (maxOf costs) t2 = true
        · have hgt1 := statGT_mono ht hgt2
          rw [if_pos hgt1] at h1
          rw [if_pos hgt2] at h2
          cases hA1 : findCPAux X t1 fuel s (s + idxOfMax costs) with
          | error e1 => simp [hA1] at h1
          | ok left1 =>
            cases hB1 : findCPAux X t1 fuel (s + idxOfMax costs + 1) e with
            | error e1 => simp [hA1, hB1] at h1
            | ok right1 =>
              cases hA2 : findCPAux X t2 fuel s (s + idxOfMax costs) with
              | error e2 => simp [hA2] at h2
              | ok left2 =>
                cases hB2 : findCPAux X t2 fuel (s + idxOfMax costs + 1) e with
                | error e2 => simp [hA2, hB2] at h2
                | ok right2 =>
                  simp only [hA1, hB1, Except.ok.injEq] at h1
                  simp only [hA2, hB2, Except.ok.injEq] at h2
                  subst h1; subst h2
                  have hL := ih s (s + idxOfMax costs) left1 left2 hA1 hA2
                  have hR := ih (s + idxOfMax costs + 1) e right1 right2 hB1 hB2
                  simp only [List.length_cons, List.length_append]
                  omega
        · rw [if_neg hgt2] at h2
          simp only [Except.ok.injEq] at h2
          subst h2
          simp

/-! ### Claim theorems (part 1) -/

/-- C1.  Binary segmentation end to end: on `X = [1,1,1,1,5,5,5,5]` with
threshold 1 the predicted change points are exactly `[3]`, and on
`X = [1.1, 1.3, -1.4, -1.4, 5.5, 5.6]` they are exactly `[1, 3]`. -/
theorem binseg_end_to_end :
    predictBS [1, 1, 1, 1, 5, 5, 5, 5] 1 = Except.ok [3] ∧
    predictBS [11/10, 13/10, -14/10, -14/10, 55/10, 56/10] 1 = Except.ok [1, 3] := by
  constructor <;> (with_unfolding_all decide)

/-- C2.  The segment table with labels `[1,2,1]`, starts `[0,4,6]`, ends
`[3,5,9]` densifies (with defaulted length) to `[1,1,1,1,2,2,1,1,1,1]` via
the mark/forward-fill/restore/clamp scheme embedded in
`sparseToDenseSegments`. -/
theorem segments_dense_example :
    sparseToDenseSegments [⟨1, 0, 3⟩, ⟨2, 4, 5⟩, ⟨1, 6, 9⟩] none =
      Except.ok [1, 1, 1, 1, 2, 2, 1, 1, 1, 1] := by decide

/-- C4.  The code evaluates `start > breaks.min()` before checking
`start is not None`, so calling `change_points_to_segments` with the
optional `start` omitted raises `TypeError` instead of returning the
segments: evaluating the embedding on the docstring's own data
`points = [1,2,5]`, `end = 7` with `start` omitted yields the error. -/
theorem change_points_to_segments_none_start :
    changePointsToSegments [1, 2, 5] none (some 7) = Except.error AnnError.typeError := by
  decide

/-- Supplementary check of the supplied-`start` path: with `start` at most
every change point (and a large enough `end`), no `TypeError` arises. -/
theorem change_points_to_segments_start_guard (points : List ℤ) (s stop : ℤ)
    (hne : points ≠ []) (hmin : ∀ x ∈ points, s ≤ x) (hstop : ∀ x ∈ points, x ≤ stop) :
    changePointsToSegments points (some s) (some stop) ≠ Except.error AnnError.typeError := by
  unfold changePointsToSegments
  cases points with
  | nil => exact absurd rfl hne
  | cons p ps =>
    simp only [listMin]
    have hmn : s ≤ ps.foldl min p := by
      have : ∀ l : List ℤ, ∀ acc : ℤ, s ≤ acc → (∀ x ∈ l, s ≤ x) → s ≤ l.foldl min acc := by
        intro l
        induction l with
        | nil => intro acc ha _; exact ha
        | cons y ys ihl =>
          intro acc ha hall
          exact ihl (min acc y) (le_min ha (hall y (List.mem_cons_self y ys)))
            (fun x hx => hall x (List.mem_cons_of_mem _ hx))
      exact this ps p (hmin p (List.mem_cons_self p ps))
        (fun x hx => hmin x (List.mem_cons_of_mem _ hx))
    rw [if_neg (not_lt.mpr hmn)]
    split
    · intro hcontra; cases hcontra
    · intro hcontra; cases hcontra

/-- C7.  Threshold monotonicity: for a fixed series and window, a larger
threshold never yields more change points from the binary-segmentation
search. -/
theorem threshold_monotone (X : List ℚ) (s e : ℕ) (t1 t2 : ℚ) (ht : t1 ≤ t2) :
    numCP X s e t2 ≤ numCP X s e t1 := by
  obtain ⟨l1, hl1⟩ := (exceptOk_iff _).mp (findCPAux_isOk X t1 (e - s) s e le_rfl)
  obtain ⟨l2, hl2⟩ := (exceptOk_iff _).mp (findCPAux_isOk X t2 (e - s) s e le_rfl)
  unfold numCP findChangePoints
  rw [hl1, hl2]
  exact findCPAux_len_anti X ht (e - s) s e l1 l2 hl1 hl2

theorem threshold_monotone_witness :
    (1 : ℚ) ≤ 2 ∧ numCP [1, 1, 5, 5] 0 3 2 ≤ numCP [1, 1, 5, 5] 0 3 1 :=
  ⟨by norm_num, threshold_monotone [1, 1, 5, 5] 0 3 1 2 (by norm_num)⟩

/-- C8.  The CUMSUM statistic helper raises its `RuntimeError` exactly for
a candidate outside the half-open window `[start, end)`, and returns the
statistic without raising for every candidate inside. -/
theorem cumsum_window_guard (X : List ℚ) (s e c : ℕ) :
    (cumsumStatSq X s e c = Except.error AnnError.windowError ↔ (c < s ∨ e ≤ c)) ∧
    (exceptOk (cumsumStatSq X s e c) = true ↔ (s ≤ c ∧ c < e)) := by
  by_cases h : c < s ∨ e ≤ c
  · constructor
    · simp [cumsumStatSq, h]
    · rw [iff_false_intro (by omega : ¬(s ≤ c ∧ c < e))]
      simp [cumsumStatSq, h, exceptOk]
  · have hok := cumsumStatSq_isOk X (s := s) (e := e) (c := c) (by omega) (by omega)
    constructor
    · obtain ⟨v, hv⟩ := (exceptOk_iff _).mp hok
      rw [hv]
      exact iff_of_false (by simp) h
    · rw [hok]
      simp only [true_iff]
      omega

/-- C9.  The recursive search only ever queries the statistic at
candidates inside its window and with nonzero weight denominators: the
embedded search, which propagates the `RuntimeError` guard and any
division by zero as errors, always returns `ok`. -/
theorem findCP_no_internal_error (X : List ℚ) (s e : ℕ) (t : ℚ) :
    exceptOk (findChangePoints X s e t) = true :=
  findCPAux_isOk X t (e - s) s e le_rfl

/-- C10.  `sparse_to_dense` reads the last element of its sparse input to
determine the default length before any other check, so on an empty points
series or an empty segment table it fails with `IndexError` for every
value of the optional length. -/
theorem sparse_to_dense_empty_input (length? : Option ℕ) :
    sparseToDensePoints [] length? = Except.error AnnError.indexError ∧
    sparseToDenseSegments [] length? = Except.error AnnError.indexError :=
  ⟨rfl, rfl⟩

/-- C3, counterexample.  The round trip is not the identity on every valid
SparsePoints input: `p = [0]` with `L = 1` densifies to `[1]`, which
contains no zero, so `dense_to_sparse` takes the segment branch and
returns a segment frame instead of the points `[0]`. -/
theorem roundtrip_counterexample : roundTrip [0] 1 ≠ some (Sparse.points [0]) := by
  decide

/-- C5, counterexample.  For the valid segment frame with labels `[1,1]`,
starts `[0,3]`, ends `[2,5]` (two contiguous segments with the same
label), `segments_to_change_points` returns `[]`: the nonzero segment
start 3 is not in the output, refuting the claim that every nonzero
segment start is returned. -/
theorem segments_to_cp_counterexample :
    ValidSegs [⟨1, 0, 2⟩, ⟨1, 3, 5⟩] ∧
    segmentsToChangePoints [⟨1, 0, 2⟩, ⟨1, 3, 5⟩] = Except.ok [] := by
  constructor
  · exact ⟨by decide, List.chain'_cons.mpr ⟨by decide, List.chain'_singleton _⟩⟩
  · decide

/-! ### Lemmas about the points branch of `sparse_to_dense` -/

theorem le_maxList : ∀ {p : List ℕ} {x : ℕ}, x ∈ p → x ≤ maxList p
  | a :: t, x, hx => by
    rcases List.mem_cons.mp hx with h | h
    · subst h
      exact le_max_left _ _
    · exact le_trans (le_maxList h) (le_max_right _ _)

theorem maxList_eq_getLast :
    ∀ {p : List ℕ}, List.Chain' (· < ·) p → (hne : p ≠ []) → maxList p = p.getLast hne
  | [a], _, _ => by simp [maxList]
  | a :: b :: t, hc, _ => by
    obtain ⟨hab, hct⟩ := List.chain'_cons.mp hc
    have htail := maxList_eq_getLast hct (List.cons_ne_nil b t)
    have hble : b ≤ maxList (b :: t) := le_maxList (List.mem_cons_self b t)
    have : maxList (a :: b :: t) = max a (maxList (b :: t)) := rfl
    rw [this, max_eq_right (le_of_lt (lt_of_lt_of_le hab hble)), htail,
      List.getLast_cons (List.cons_ne_nil b t)]

theorem foldlSet_length : ∀ (p : List ℕ) (d : List ℤ),
    (p.foldl (fun a j => a.set j 1) d).length = d.length
  | [], _ => rfl
  | x :: xs, d => by
    simp only [List.foldl_cons]
    rw [foldlSet_length xs]
    exact List.length_set d x 1

theorem foldlSet_getElem? :
    ∀ (p : List ℕ) (d : List ℤ) (i : ℕ), i < d.length →
      (p.foldl (fun a j => a.set j 1) d)[i]? = if i ∈ p then some 1 else d[i]?
  | [], d, i, _ => by simp
  | x :: xs, d, i, hi => by
    simp only [List.foldl_cons]
    rw [foldlSet_getElem? xs (d.set x 1) i (by simpa using hi)]
    by_cases hmem : i ∈ xs
    · simp [hmem]
    · by_cases hix : i = x
      · subst hix
        simp [hmem, List.getElem?_set_self hi]
      · simp [hmem, hix, List.getElem?_set_ne (fun h => hix h.symm)]

theorem foldlSet_eq_indicator (p : List ℕ) (L : ℕ) :
    p.foldl (fun a j => a.set j 1) (List.replicate L (0 : ℤ)) = denseIndicator p L := by
  apply List.ext_getElem?
  intro i
  by_cases hi : i < L
  · rw [foldlSet_getElem? p _ i (by simpa using hi)]
    simp only [denseIndicator, List.getElem?_map, List.getElem?_range hi,
      List.getElem?_replicate, if_pos hi, Option.map_some']
    split <;> rfl
  · rw [List.getElem?_eq_none, List.getElem?_eq_none]
    · simp [denseIndicator]
      omega
    · rw [foldlSet_length]
      simp
      omega

theorem sparsePoints_char (p : List ℕ) (hc : List.Chain' (· < ·) p) (hne : p ≠ []) :
    (∀ L, sparseToDensePoints p (some L) =
      if L ≤ maxList p then Except.error AnnError.lengthError
      else Except.ok (denseIndicator p L)) ∧
    sparseToDensePoints p none = Except.ok (denseIndicator p (maxList p + 1)) := by
  have hg : p.getLast? = some (p.getLast hne) := List.getLast?_eq_getLast p hne
  have hmaxlast : maxList p = p.getLast hne := maxList_eq_getLast hc hne
  constructor
  · intro L
    simp only [sparseToDensePoints, hg, Option.getD_some]
    by_cases hL : L ≤ maxList p
    · rw [if_pos (by omega : L ≤ p.getLast hne), if_pos hL]
    · have hany : ¬((p.any fun i => L ≤ i) = true) := by
        simp only [List.any_eq_true, not_exists, not_and, decide_eq_true_eq]
        intro x hx
        have := le_maxList hx
        omega
      rw [if_neg (by omega : ¬(L ≤ p.getLast hne)), if_neg hL, if_neg hany,
        foldlSet_eq_indicator]
  · simp only [sparseToDensePoints, hg, Option.getD_none]
    have hany : ¬((p.any fun i => p.getLast hne + 1 ≤ i) = true) := by
      simp only [List.any_eq_true, not_exists, not_and, decide_eq_true_eq]
      intro x hx
      have := le_maxList hx
      omega
    rw [if_neg (by omega : ¬(p.getLast hne + 1 ≤ p.getLast hne)), if_neg hany,
      foldlSet_eq_indicator, hmaxlast]

/-- C6.  For a nonempty strictly increasing points series: a supplied
length raises the RangeError-kind guard exactly when it is at most the
maximum index, and otherwise (also when the length is omitted, defaulting
to `max + 1`) the dense 0/1 indicator of the requested length is
returned. -/
theorem sparse_points_range_guard (p : List ℕ) (hc : List.Chain' (· < ·) p) (hne : p ≠ []) :
    (∀ L, sparseToDensePoints p (some L) =
      if L ≤ maxList p then Except.error AnnError.lengthError
      else Except.ok (denseIndicator p L)) ∧
    sparseToDensePoints p none = Except.ok (denseIndicator p (maxList p + 1)) :=
  sparsePoints_char p hc hne

theorem sparse_points_range_guard_witness :
    sparseToDensePoints [2, 5, 7] (some 10) = Except.ok [0, 0, 1, 0, 0, 1, 0, 1, 0, 0] := by
  have h := (sparse_points_range_guard [2, 5, 7]
    (List.chain'_cons.mpr ⟨by decide, List.chain'_cons.mpr ⟨by decide,
      List.chain'_singleton _⟩⟩) (by decide)).1 10
  rw [if_neg (by decide)] at h
  rw [h]
  decide

/-- C3, amended.  For a nonempty strictly increasing points series `p`
with all positions in `[0, L)` that does not cover every position
(`p.length < L`, forced by the counterexample `p = [0]`, `L = 1`), the
round trip `dense_to_sparse (sparse_to_dense p L)` returns exactly `p`. -/
theorem roundtrip_points (p : List ℕ) (L : ℕ) (hc : List.Chain' (· < ·) p) (hne : p ≠ [])
    (hlt : ∀ x ∈ p, x < L) (hlen : p.length < L) :
    roundTrip p L = some (Sparse.points p) := by
  have hmax : maxList p < L := by
    rw [maxList_eq_getLast hc hne]
    exact hlt _ (List.getLast_mem hne)
  have hstep := (sparsePoints_char p hc hne).1 L
  rw [if_neg (by omega)] at hstep
  unfold roundTrip
  rw [hstep]
  simp only [Except.toOption, Option.map_some']
  congr 1
  have hnodup : p.Nodup := by
    have hp := List.chain'_iff_pairwise.mp hc
    exact hp.imp (fun h => Nat.ne_of_lt h)
  have hmiss : ∃ j, j < L ∧ j ∉ p := by
    by_contra hall
    push_neg at hall
    have hsub : List.range L ⊆ p := fun j hj => hall j (List.mem_range.mp hj)
    have hsp : (List.range L).Subperm p := (List.nodup_range L).subperm hsub
    have := hsp.length_le
    rw [List.length_range] at this
    omega
  obtain ⟨j, hjL, hjp⟩ := hmiss
  have hzero : (denseIndicator p L).any (fun v => v == 0) = true := by
    refine List.any_eq_true.mpr ⟨0, ?_, rfl⟩
    unfold denseIndicator
    exact List.mem_map.mpr ⟨j, List.mem_range.mpr hjL, by simp [hjp]⟩
  unfold denseToSparse
  rw [if_pos hzero]
  congr 1
  have hlen' : (denseIndicator p L).length = L := by simp [denseIndicator]
  rw [hlen']
  have hpred : ∀ i ∈ List.range L,
      ((denseIndicator p L).getD i 0 == 1) = decide (i ∈ p) := by
    intro i hi
    have hiL := List.mem_range.mp hi
    rw [List.getD_eq_getElem?_getD]
    unfold denseIndicator
    rw [List.getElem?_map, List.getElem?_range hiL]
    by_cases hip : i ∈ p
    · simp [hip]
    · simp [hip]
  rw [List.filter_congr hpred]
  apply List.eq_of_perm_of_sorted (r := (· ≤ ·))
  · refine (List.perm_ext_iff_of_nodup ((List.nodup_range L).filter _) hnodup).mpr ?_
    intro a
    simp only [List.mem_filter, List.mem_range, decide_eq_true_eq]
    exact ⟨fun h => h.2, fun h => ⟨hlt a h, h⟩⟩
  · exact ((List.pairwise_lt_range L).filter _).imp (fun h => Nat.le_of_lt h)
  · exact (List.chain'_iff_pairwise.mp hc).imp (fun h => Nat.le_of_lt h)

theorem roundtrip_points_witness : roundTrip [0, 2] 3 = some (Sparse.points [0, 2]) :=
  roundtrip_points [0, 2] 3
    (List.chain'_cons.mpr ⟨by decide, List.chain'_singleton _⟩) (by decide)
    (by decide) (by decide)

/-! ### Write/mark lemmas for the segmentation branch -/

theorem writeAll_nil_right {α : Type} (d : List α) (ps : List ℕ) : writeAll d ps [] = d := by
  unfold writeAll
  rw [List.zip_nil_right]
  rfl

theorem writeAll_cons {α : Type} (d : List α) (x : ℕ) (v : α) (ps : List ℕ) (vs : List α) :
    writeAll d (x :: ps) (v :: vs) = writeAll (d.set x v) ps vs := rfl

theorem writeAll_set_comm {α : Type} :
    ∀ (ps : List ℕ) (vs : List α) (d : List α) (i : ℕ) (v : α), (∀ q ∈ ps, q ≠ i) →
      writeAll (d.set i v) ps vs = (writeAll d ps vs).set i v
  | [], _, _, _, _, _ => rfl
  | _ :: _, [], _, _, _, _ => by simp [writeAll_nil_right]
  | q :: ps, w :: vs, d, i, v, h => by
    rw [writeAll_cons, writeAll_cons,
      List.set_comm v w d (Ne.symm (h q (List.mem_cons_self q ps))),
      writeAll_set_comm ps vs _ i v (fun a ha => h a (List.mem_cons_of_mem _ ha))]

theorem writeAll_ge {α : Type} :
    ∀ (ps : List ℕ) (vs : List α) (X Y : List α), (∀ q ∈ ps, X.length ≤ q) →
      writeAll (X ++ Y) ps vs = X ++ writeAll Y (ps.map (fun q => q - X.length)) vs
  | [], _, _, _, _ => rfl
  | _ :: _, [], _, _, _ => by simp [writeAll_nil_right]
  | q :: ps, w :: vs, X, Y, h => by
    rw [List.map_cons, writeAll_cons, writeAll_cons,
      List.set_append_right _ _ (h q (List.mem_cons_self q ps)),
      writeAll_ge ps vs X _ (fun a ha => h a (List.mem_cons_of_mem _ ha))]

theorem set_replicate {α : Type} (a v : α) :
    ∀ (k i : ℕ), i < k →
      (List.replicate k a).set i v = List.replicate i a ++ v :: List.replicate (k - i - 1) a
  | k + 1, 0, _ => by simp [List.replicate_succ]
  | k + 1, i + 1, h => by
    rw [List.replicate_succ, List.set_cons_succ, set_replicate a v k i (by omega)]
    simp [List.replicate_succ]

theorem cursorAfter_mono : ∀ (f : List Seg) (p : ℕ), ValidFrom p f → p ≤ cursorAfter p f
  | [], _, _ => le_rfl
  | g :: gs, p, hv => by
    have := cursorAfter_mono gs (g.stop + 1) hv.2.2.2
    simp only [cursorAfter]
    have h1 := hv.1
    have h2 := hv.2.1
    omega

theorem int32_eq_self {v : ℤ} (h1 : -(2 ^ 31) ≤ v) (h2 : v < 2 ^ 31) : int32 v = v := by
  unfold int32
  omega

theorem validFrom_bounds : ∀ (f : List Seg) (p : ℕ), ValidFrom p f → ∀ g' ∈ f,
    p ≤ g'.start ∧ g'.start ≤ g'.stop ∧ (1 ≤ g'.label ∧ g'.label < 2 ^ 31) ∧
      g'.stop + 1 ≤ cursorAfter p f
  | g :: gs, p, hv, g', hm => by
    rcases List.mem_cons.mp hm with h | h
    · subst h
      have hc := cursorAfter_mono gs (g'.stop + 1) hv.2.2.2
      exact ⟨hv.1, hv.2.1, hv.2.2.1, by simp only [cursorAfter]; omega⟩
    · have hrec := validFrom_bounds gs (g.stop + 1) hv.2.2.2 g' h
      have h1 := hv.1
      have h2 := hv.2.1
      refine ⟨by omega, hrec.2.1, hrec.2.2.1, ?_⟩
      simp only [cursorAfter]
      exact hrec.2.2.2

theorem segBlock_length (g : Seg) (h : g.start ≤ g.stop) :
    (segBlock g).length = g.stop - g.start + 1 := by
  unfold segBlock
  split
  · simp
    omega
  · simp
    omega

theorem base_marks (g : Seg) (p L : ℕ) (hps : p ≤ g.start) (hse : g.start ≤ g.stop)
    (hL : g.stop + 1 ≤ L) :
    ((List.replicate (L - p) (none : Option ℤ)).set (g.start - p) (some g.label)).set
      (g.stop - p) (some (-g.label))
    = (List.replicate (g.start - p) none ++ segBlock g) ++
        List.replicate (L - (g.stop + 1)) none := by
  by_cases heq : g.start = g.stop
  · rw [show g.start - p = g.stop - p by omega, List.set_set,
      set_replicate _ _ _ _ (by omega : g.stop - p < L - p),
      show L - p - (g.stop - p) - 1 = L - (g.stop + 1) by omega,
      show g.stop - p = g.start - p by omega]
    simp [segBlock, heq]
  · have hlt : g.start < g.stop := by omega
    rw [set_replicate _ _ _ _ (by omega : g.start - p < L - p),
      List.set_append_right _ _ (by simp; omega),
      show g.stop - p - (List.replicate (g.start - p) (none : Option ℤ)).length
        = (g.stop - g.start - 1) + 1 by simp; omega,
      List.set_cons_succ,
      set_replicate _ _ _ _ (by omega : g.stop - g.start - 1 < L - p - (g.start - p) - 1),
      show L - p - (g.start - p) - 1 - (g.stop - g.start - 1) - 1 = L - (g.stop + 1) by omega]
    simp only [segBlock, if_neg heq]
    simp

theorem marks_eq : ∀ (f : List Seg) (p L : ℕ), ValidFrom p f → cursorAfter p f ≤ L →
    writeAll (writeAll (List.replicate (L - p) (none : Option ℤ))
        ((segStarts f).map (fun q => q - p)) ((segLabels f).map some))
      ((segStops f).map (fun q => q - p)) ((segLabels f).map (fun v => some (-v)))
    = marksFrom p f ++ List.replicate (L - cursorAfter p f) none
  | [], p, L, _, _ => by
    simp [segStarts, segStops, segLabels, writeAll, marksFrom, cursorAfter]
  | g :: gs, p, L, hv, hL => by
    obtain ⟨hps, hse, hlab, hvg⟩ := hv
    have hca := cursorAfter_mono gs (g.stop + 1) hvg
    have hcaL : cursorAfter (g.stop + 1) gs ≤ L := by
      simpa only [cursorAfter] using hL
    have hstarts_ge : ∀ q ∈ (List.map Seg.start gs).map (fun q => q - p),
        g.stop + 1 - p ≤ q := by
      intro q hq
      obtain ⟨q0, hq0, rfl⟩ := List.mem_map.mp hq
      obtain ⟨g', hg', rfl⟩ := List.mem_map.mp hq0
      have := (validFrom_bounds gs (g.stop + 1) hvg g' hg').1
      omega
    have hstops_ge : ∀ q ∈ (List.map Seg.stop gs).map (fun q => q - p),
        g.stop + 1 - p ≤ q := by
      intro q hq
      obtain ⟨q0, hq0, rfl⟩ := List.mem_map.mp hq
      obtain ⟨g', hg', rfl⟩ := List.mem_map.mp hq0
      have hb := validFrom_bounds gs (g.stop + 1) hvg g' hg'
      have h1 := hb.1
      have h2 := hb.2.1
      omega
    have hstarts_ne : ∀ q ∈ (List.map Seg.start gs).map (fun q => q - p),
        q ≠ g.stop - p := by
      intro q hq
      have := hstarts_ge q hq
      omega
    have hBlen : ((List.replicate (g.start - p) (none : Option ℤ)) ++ segBlock g).length
        = g.stop + 1 - p := by
      rw [List.length_append, List.length_replicate, segBlock_length g hse]
      omega
    simp only [segStarts, segStops, segLabels, List.map_cons]
    rw [writeAll_cons, writeAll_cons,
      ← writeAll_set_comm _ _ _ _ _ hstarts_ne,
      base_marks g p L hps hse (by omega)]
    rw [writeAll_ge _ _ _ _ (by rw [hBlen]; exact hstarts_ge),
      writeAll_ge _ _ _ _ (by rw [hBlen]; exact hstops_ge)]
    have hmapstarts :
        ((List.map Seg.start gs).map (fun q => q - p)).map
          (fun q => q - ((List.replicate (g.start - p) (none : Option ℤ)) ++ segBlock g).length)
        = (List.map Seg.start (gs)).map (fun q => q - (g.stop + 1)) := by
      rw [hBlen, List.map_map]
      refine List.map_congr_left ?_
      intro q hq
      obtain ⟨g', hg', rfl⟩ := List.mem_map.mp hq
      have := (validFrom_bounds gs (g.stop + 1) hvg g' hg').1
      simp only [Function.comp]
      omega
    have hmapstops :
        ((List.map Seg.stop gs).map (fun q => q - p)).map
          (fun q => q - ((List.replicate (g.start - p) (none : Option ℤ)) ++ segBlock g).length)
        = (List.map Seg.stop (gs)).map (fun q => q - (g.stop + 1)) := by
      rw [hBlen, List.map_map]
      refine List.map_congr_left ?_
      intro q hq
      obtain ⟨g', hg', rfl⟩ := List.mem_map.mp hq
      have hb := validFrom_bounds gs (g.stop + 1) hvg g' hg'
      have h1 := hb.1
      have h2 := hb.2.1
      simp only [Function.comp]
      omega
    rw [hmapstarts, hmapstops]
    have hrec := marks_eq gs (g.stop + 1) L hvg hcaL
    simp only [segStarts, segStops, segLabels] at hrec
    rw [hrec]
    simp [marksFrom, cursorAfter, List.append_assoc]

theorem ffillCarry_cons_none (c : Option ℤ) (X : List (Option ℤ)) :
    ffillCarry c (none :: X) = ffillCarry c X := rfl

theorem ffillCarry_cons_some (c : Option ℤ) (v : ℤ) (X : List (Option ℤ)) :
    ffillCarry c (some v :: X) = ffillCarry (some v) X := rfl

theorem ffillCarry_append (c : Option ℤ) (X Y : List (Option ℤ)) :
    ffillCarry c (X ++ Y) = ffillCarry (ffillCarry c X) Y := by
  unfold ffillCarry
  rw [List.foldl_append]

theorem ffillAux_append : ∀ (X Y : List (Option ℤ)) (c : Option ℤ),
    ffillAux c (X ++ Y) = ffillAux c X ++ ffillAux (ffillCarry c X) Y
  | [], _, _ => rfl
  | none :: X, Y, c => by
    simp only [List.cons_append, ffillAux, ffillCarry_cons_none]
    exact congrArg (c :: ·) (ffillAux_append X Y c)
  | some v :: X, Y, c => by
    simp only [List.cons_append, ffillAux, ffillCarry_cons_some]
    exact congrArg (some v :: ·) (ffillAux_append X Y (some v))

theorem ffillAux_replicate_none (c : Option ℤ) :
    ∀ k, ffillAux c (List.replicate k none) = List.replicate k c
  | 0 => rfl
  | k + 1 => by
    simp only [List.replicate_succ, ffillAux]
    rw [ffillAux_replicate_none c k]

theorem ffillCarry_replicate_none (c : Option ℤ) :
    ∀ k, ffillCarry c (List.replicate k none) = c
  | 0 => rfl
  | k + 1 => by
    simp only [List.replicate_succ, ffillCarry_cons_none]
    exact ffillCarry_replicate_none c k

theorem ffillAux_segBlock (g : Seg) (hse : g.start ≤ g.stop) (c : Option ℤ) :
    ffillAux c (segBlock g) =
      List.replicate (g.stop - g.start) (some g.label) ++ [some (-g.label)] := by
  unfold segBlock
  split
  · rename_i heq
    simp [ffillAux, show g.stop - g.start = 0 by omega]
  · rename_i hne
    simp only [ffillAux]
    rw [ffillAux_append, ffillAux_replicate_none, ffillCarry_replicate_none]
    simp only [ffillAux]
    rw [show g.stop - g.start = (g.stop - g.start - 1) + 1 by omega, List.replicate_succ]
    simp

theorem ffillCarry_segBlock (g : Seg) (c : Option ℤ) :
    ffillCarry c (segBlock g) = some (-g.label) := by
  unfold segBlock
  split
  · rfl
  · rw [ffillCarry_cons_some, ffillCarry_append, ffillCarry_replicate_none]
    rfl

theorem mapM_id_map_some : ∀ (l : List ℤ), (l.map some).mapM (fun x => x) = some l
  | [] => rfl
  | v :: l => by
    simp only [List.map_cons, List.mapM_cons, mapM_id_map_some l]
    rfl

theorem mapM_id_some_append {A B : List (Option ℤ)} {a b : List ℤ}
    (ha : A.mapM (fun x => x) = some a) (hb : B.mapM (fun x => x) = some b) :
    (A ++ B).mapM (fun x => x) = some (a ++ b) := by
  rw [List.mapM_append, ha, hb]
  rfl

theorem post_pipeline : ∀ (f : List Seg) (p : ℕ) (c? : Option ℤ), ValidFrom p f →
    ((∃ v, c? = some v ∧ v ≤ -1) ∨ (∀ g₀ ∈ f.head?, g₀.start = p)) →
    ∃ F, (ffillAux c? (marksFrom p f)).mapM (fun x => x) = some F ∧
      (writeAll F ((segStops f).map (fun q => q - p)) (segLabels f)).map
        (fun v => if v < 0 then -1 else v) = expandFrom p f
  | [], p, c?, _, _ =>
    ⟨[], by simp [marksFrom, ffillAux, List.mapM_nil]; rfl,
      by simp [segStops, segLabels, expandFrom, writeAll]⟩
  | g :: gs, p, c?, hv, hc => by
    obtain ⟨hps, hse, hlab, hvg⟩ := hv
    have hgapF : ∃ gapF : List ℤ,
        (List.replicate (g.start - p) c?).mapM (fun x => x) = some gapF ∧
        gapF.map (fun v => if v < 0 then -1 else v) = List.replicate (g.start - p) (-1 : ℤ) ∧
        gapF.length = g.start - p := by
      rcases Nat.eq_zero_or_pos (g.start - p) with h0 | hpos
      · rw [h0]
        exact ⟨[], rfl, rfl, rfl⟩
      · rcases hc with ⟨v, rfl, hvle⟩ | hstart
        · refine ⟨List.replicate (g.start - p) v, ?_, ?_, by simp⟩
          · rw [← List.map_replicate]
            exact mapM_id_map_some _
          · rw [List.map_replicate, if_pos (by omega : v < 0)]
        · exfalso
          have := hstart g rfl
          omega
    obtain ⟨gapF, hgap1, hgap2, hgap3⟩ := hgapF
    obtain ⟨F', hF', hW'⟩ := post_pipeline gs (g.stop + 1) (some (-g.label)) hvg
      (Or.inl ⟨-g.label, rfl, by omega⟩)
    refine ⟨gapF ++ ((List.replicate (g.stop - g.start) g.label ++ [-g.label]) ++ F'), ?_, ?_⟩
    · have hm : marksFrom p (g :: gs)
          = List.replicate (g.start - p) none ++ (segBlock g ++ marksFrom (g.stop + 1) gs) := by
        simp [marksFrom, List.append_assoc]
      rw [hm, ffillAux_append, ffillAux_append, ffillAux_replicate_none,
        ffillCarry_replicate_none, ffillAux_segBlock g hse, ffillCarry_segBlock]
      apply mapM_id_some_append hgap1
      apply mapM_id_some_append _ hF'
      rw [show List.replicate (g.stop - g.start) (some g.label) ++ [some (-g.label)]
          = (List.replicate (g.stop - g.start) g.label ++ [-g.label]).map some by
        rw [List.map_append, List.map_replicate]
        rfl]
      exact mapM_id_map_some _
    · simp only [segStops, segLabels, List.map_cons]
      rw [writeAll_cons]
      have hlenA : (gapF ++ List.replicate (g.stop - g.start) g.label).length = g.stop - p := by
        simp [hgap3]
        omega
      have hgroup : gapF ++ ((List.replicate (g.stop - g.start) g.label ++ [-g.label]) ++ F')
          = (gapF ++ List.replicate (g.stop - g.start) g.label) ++ ((-g.label) :: F') := by
        simp [List.append_assoc]
      rw [hgroup, List.set_append_right _ _ (by omega : _ ≤ g.stop - p),
        show g.stop - p - (gapF ++ List.replicate (g.stop - g.start) g.label).length = 0 by
          rw [hlenA]; omega, List.set_cons_zero]
      have hgroup2 : (gapF ++ List.replicate (g.stop - g.start) g.label) ++ (g.label :: F')
          = ((gapF ++ List.replicate (g.stop - g.start) g.label) ++ [g.label]) ++ F' := by
        simp [List.append_assoc]
      rw [hgroup2]
      have hlenX : ((gapF ++ List.replicate (g.stop - g.start) g.label) ++ [g.label]).length
          = g.stop + 1 - p := by
        simp [hgap3]
        omega
      have hge : ∀ q ∈ (List.map Seg.stop gs).map (fun q => q - p),
          ((gapF ++ List.replicate (g.stop - g.start) g.label) ++ [g.label]).length ≤ q := by
        intro q hq
        obtain ⟨q0, hq0, rfl⟩ := List.mem_map.mp hq
        obtain ⟨g', hg', rfl⟩ := List.mem_map.mp hq0
        have hb := validFrom_bounds gs (g.stop + 1) hvg g' hg'
        have h1 := hb.1
        have h2 := hb.2.1
        rw [hlenX]
        omega
      rw [writeAll_ge _ _ _ _ hge]
      have hshift : ((List.map Seg.stop gs).map (fun q => q - p)).map
            (fun q => q - ((gapF ++ List.replicate (g.stop - g.start) g.label) ++ [g.label]).length)
          = (List.map Seg.stop gs).map (fun q => q - (g.stop + 1)) := by
        rw [hlenX, List.map_map]
        refine List.map_congr_left ?_
        intro q hq
        obtain ⟨g', hg', rfl⟩ := List.mem_map.mp hq
        have hb := validFrom_bounds gs (g.stop + 1) hvg g' hg'
        have h1 := hb.1
        have h2 := hb.2.1
        simp only [Function.comp]
        omega
      rw [hshift]
      simp only [segStops, segLabels] at hW'
      rw [List.map_append, List.map_append, List.map_append, hW', hgap2,
        List.map_replicate, if_neg (by omega : ¬(g.label < 0)),
        show List.map (fun v => if v < 0 then -1 else v) [g.label] = [g.label] by
          simp [show ¬(g.label < 0) by omega]]
      simp only [expandFrom]
      rw [List.replicate_succ']
      simp [List.append_assoc]

theorem validSegs_validFrom : ∀ (f : List Seg) (p : ℕ),
    (∀ g ∈ f, (1 ≤ g.label ∧ g.label < 2 ^ 31) ∧ g.start ≤ g.stop) →
    List.Chain' (fun a b => a.stop + 1 ≤ b.start) f →
    (∀ g₀ ∈ f.head?, p ≤ g₀.start) → ValidFrom p f
  | [], _, _, _, _ => trivial
  | g :: gs, p, hall, hchain, hp => by
    obtain ⟨hhead, htail⟩ := List.chain'_cons'.mp hchain
    exact ⟨hp g rfl, (hall g (List.mem_cons_self g gs)).2, (hall g (List.mem_cons_self g gs)).1,
      validSegs_validFrom gs (g.stop + 1) (fun g' h => hall g' (List.mem_cons_of_mem _ h))
        htail hhead⟩

theorem cursorAfter_getLast : ∀ (f : List Seg) (p : ℕ), f ≠ [] →
    cursorAfter p f = ((segStops f).getLast?.getD 0) + 1
  | [g], p, _ => by simp [cursorAfter, segStops]
  | g :: g' :: gs, p, _ => by
    have h := cursorAfter_getLast (g' :: gs) (g.stop + 1) (by simp)
    simp only [cursorAfter] at h ⊢
    rw [h]
    simp [segStops, List.getLast?_cons_cons]

theorem marksFrom_shift (g : Seg) (gs : List Seg) (h : 1 ≤ g.start) :
    marksFrom 0 (g :: gs) = none :: marksFrom 1 (g :: gs) := by
  simp only [marksFrom, Nat.sub_zero]
  rw [show g.start = (g.start - 1) + 1 by omega, List.replicate_succ]
  simp [show g.start - 1 + 1 - 1 = g.start - 1 by omega]

theorem expandFrom_shift (g : Seg) (gs : List Seg) (h : 1 ≤ g.start) :
    expandFrom 0 (g :: gs) = -1 :: expandFrom 1 (g :: gs) := by
  simp only [expandFrom, Nat.sub_zero]
  rw [show g.start = (g.start - 1) + 1 by omega, List.replicate_succ]
  simp [show g.start - 1 + 1 - 1 = g.start - 1 by omega]

theorem denseSeg_eq_expand : ∀ (f : List Seg), ValidFrom 0 f → f ≠ [] →
    sparseToDenseSegments f none = Except.ok (expandFrom 0 f) := by
  intro f hvf hne
  obtain ⟨g, gs, rfl⟩ : ∃ g gs, f = g :: gs := by
    cases f with
    | nil => exact absurd rfl hne
    | cons g gs => exact ⟨g, gs, rfl⟩
  have hstopsne : segStops (g :: gs) ≠ [] := by simp [segStops]
  have hgl : (segStops (g :: gs)).getLast? = some ((segStops (g :: gs)).getLast hstopsne) :=
    List.getLast?_eq_getLast _ hstopsne
  set gl := (segStops (g :: gs)).getLast hstopsne with hgldef
  have hca : cursorAfter 0 (g :: gs) = gl + 1 := by
    rw [cursorAfter_getLast (g :: gs) 0 hne, hgl]
    rfl
  have hboundall : ∀ g' ∈ g :: gs, g'.start ≤ gl ∧ g'.stop ≤ gl := by
    intro g' hg'
    have hb := validFrom_bounds (g :: gs) 0 hvf g' hg'
    have h1 := hb.2.1
    have h2 := hb.2.2.2
    rw [hca] at h2
    omega
  have hguard1 : ¬(((segStarts (g :: gs)).any fun i => gl + 1 ≤ i)
      || ((segStops (g :: gs)).any fun i => gl + 1 ≤ i)) = true := by
    simp only [Bool.or_eq_true, List.any_eq_true, decide_eq_true_eq, not_or, not_exists, not_and]
    constructor
    · intro q hq
      obtain ⟨g', hg', rfl⟩ := List.mem_map.mp hq
      have := (hboundall g' hg').1
      omega
    · intro q hq
      obtain ⟨g', hg', rfl⟩ := List.mem_map.mp hq
      have := (hboundall g' hg').2
      omega
  have hm := marks_eq (g :: gs) 0 (gl + 1) hvf (by omega)
  simp only [Nat.sub_zero, hca, List.map_id', Nat.sub_self, List.replicate_zero,
    List.append_nil] at hm
  have hlabrange : ∀ l ∈ segLabels (g :: gs), 1 ≤ l ∧ l < 2 ^ 31 := by
    intro l hl
    obtain ⟨g', hg', rfl⟩ := List.mem_map.mp hl
    exact (validFrom_bounds (g :: gs) 0 hvf g' hg').2.2.1
  have hmap1 : (segLabels (g :: gs)).map (fun v => some (int32 v))
      = (segLabels (g :: gs)).map some := by
    refine List.map_congr_left ?_
    intro l hl
    have h := hlabrange l hl
    rw [int32_eq_self (by omega) (by omega)]
  have hmap2 : (segLabels (g :: gs)).map (fun v => some (int32 (-(int32 v))))
      = (segLabels (g :: gs)).map (fun v => some (-v)) := by
    refine List.map_congr_left ?_
    intro l hl
    have h := hlabrange l hl
    rw [int32_eq_self (v := l) (by omega) (by omega),
      int32_eq_self (v := -l) (by omega) (by omega)]
  have hmap3 : (segLabels (g :: gs)).map (fun v => int32 v) = segLabels (g :: gs) := by
    refine ((List.map_congr_left ?_).trans (List.map_id' _))
    intro l hl
    have h := hlabrange l hl
    exact int32_eq_self (by omega) (by omega)
  simp only [sparseToDenseSegments, hgl, Option.getD_none]
  rw [if_neg (by omega : ¬(gl + 1 ≤ gl)), if_neg hguard1]
  simp only [hmap1, hmap2, hmap3]
  rw [hm]
  by_cases hz : g.start = 0
  · -- no leading gap: the first cell is a mark, the NaN fix is a no-op
    have hhead : ∃ w rest, marksFrom 0 (g :: gs) = some w :: rest := by
      simp only [marksFrom, hz, Nat.sub_zero, List.replicate_zero, List.nil_append]
      unfold segBlock
      split
      · exact ⟨_, _, rfl⟩
      · exact ⟨_, _, rfl⟩
    obtain ⟨w, rest, hwrest⟩ := hhead
    obtain ⟨F, hF, hW⟩ := post_pipeline (g :: gs) 0 none hvf
      (Or.inr (fun g₀ h => by cases h; exact hz))
    simp only [Nat.sub_zero, List.map_id'] at hW
    rw [hwrest] at hF ⊢
    rw [hF]
    exact congrArg Except.ok hW
  · -- leading gap: position 0 is NaN and is replaced by -1
    have h1 : 1 ≤ g.start := by omega
    have hv1 : ValidFrom 1 (g :: gs) := ⟨h1, hvf.2.1, hvf.2.2.1, hvf.2.2.2⟩
    obtain ⟨F, hF, hW⟩ := post_pipeline (g :: gs) 1 (some (-1)) hv1
      (Or.inl ⟨-1, rfl, le_rfl⟩)
    rw [marksFrom_shift g gs h1]
    simp only [ffillAux]
    rw [List.mapM_cons, hF]
    show Except.ok _ = _
    have hstops1 : ∀ q ∈ (segStops (g :: gs)), 1 ≤ q := by
      intro q hq
      obtain ⟨g', hg', rfl⟩ := List.mem_map.mp hq
      have hb := validFrom_bounds (g :: gs) 1 hv1 g' hg'
      have ha := hb.1
      have hc := hb.2.1
      omega
    have hsplit : writeAll (-1 :: F) (segStops (g :: gs)) (segLabels (g :: gs))
        = -1 :: writeAll F ((segStops (g :: gs)).map (fun q => q - 1)) (segLabels (g :: gs)) := by
      have := writeAll_ge (segStops (g :: gs)) (segLabels (g :: gs)) [(-1 : ℤ)] F
        (by intro q hq; simpa using hstops1 q hq)
      simpa using this
    rw [hsplit, List.map_cons, hW, expandFrom_shift g gs h1]
    norm_num

theorem expandFrom_length : ∀ (f : List Seg) (p : ℕ), ValidFrom p f →
    (expandFrom p f).length = cursorAfter p f - p
  | [], p, _ => by simp [expandFrom, cursorAfter]
  | g :: gs, p, hv => by
    obtain ⟨hps, hse, _, hvg⟩ := hv
    have hca := cursorAfter_mono gs (g.stop + 1) hvg
    simp only [expandFrom, cursorAfter, List.length_append, List.length_replicate]
    rw [expandFrom_length gs (g.stop + 1) hvg]
    omega

theorem expand_getD : ∀ (f : List Seg) (p : ℕ), ValidFrom p f →
    ∀ i, i < cursorAfter p f - p → (expandFrom p f).getD i 0 = segLabelAt f (p + i)
  | [], p, _, i, hi => by simp [cursorAfter] at hi
  | g :: gs, p, hv, i, hi => by
    obtain ⟨hps, hse, hlab, hvg⟩ := hv
    have hca := cursorAfter_mono gs (g.stop + 1) hvg
    have hcacons : cursorAfter p (g :: gs) = cursorAfter (g.stop + 1) gs := rfl
    rw [List.getD_eq_getElem?_getD]
    simp only [expandFrom]
    by_cases h1 : i < g.start - p
    · rw [List.getElem?_append_left (by simp; omega), List.getElem?_append_left (by simp; omega),
        List.getElem?_replicate, if_pos h1]
      simp only [segLabelAt]
      rw [if_pos (by omega : p + i < g.start)]
      rfl
    · by_cases h2 : i < g.stop + 1 - p
      · rw [List.getElem?_append_left (by simp; omega),
          List.getElem?_append_right (by simp; omega), List.getElem?_replicate,
          if_pos (by simp; omega)]
        simp only [segLabelAt]
        rw [if_neg (by omega : ¬(p + i < g.start)), if_pos (by omega : p + i ≤ g.stop)]
        rfl
      · rw [List.getElem?_append_right (by simp; omega)]
        have hrec := expand_getD gs (g.stop + 1) hvg (i - (g.stop + 1 - p))
          (by rw [hcacons] at hi; omega)
        rw [List.getD_eq_getElem?_getD] at hrec
        rw [show i - (List.replicate (g.start - p) (-1 : ℤ)
              ++ List.replicate (g.stop - g.start + 1) g.label).length
            = i - (g.stop + 1 - p) by simp; omega, hrec]
        simp only [segLabelAt]
        rw [if_neg (by omega : ¬(p + i < g.start)), if_neg (by omega : ¬(p + i ≤ g.stop)),
          show g.stop + 1 + (i - (g.stop + 1 - p)) = p + i by omega]

theorem segLabelAt_mem : ∀ (f : List Seg) (p : ℕ), ValidFrom p f →
    ∀ g' ∈ f, ∀ q, g'.start ≤ q → q ≤ g'.stop → segLabelAt f q = g'.label
  | g :: gs, p, hv, g', hm, q, h1, h2 => by
    rcases List.mem_cons.mp hm with h | h
    · subst h
      simp only [segLabelAt]
      rw [if_neg (by omega : ¬(q < g'.start)), if_pos h2]
    · have hb := validFrom_bounds gs (g.stop + 1) hv.2.2.2 g' h
      have hga := hb.1
      have hse := hv.2.1
      simp only [segLabelAt]
      rw [if_neg (by omega : ¬(q < g.start)), if_neg (by omega : ¬(q ≤ g.stop))]
      exact segLabelAt_mem gs (g.stop + 1) hv.2.2.2 g' h q h1 h2

theorem segLabelAt_uncovered : ∀ (f : List Seg) (p : ℕ), ValidFrom p f →
    ∀ q, (∀ g' ∈ f, q < g'.start ∨ g'.stop < q) → segLabelAt f q = -1
  | [], _, _, _, _ => rfl
  | g :: gs, p, hv, q, hq => by
    have hse := hv.2.1
    rcases hq g (List.mem_cons_self g gs) with h | h
    · simp only [segLabelAt]
      rw [if_pos h]
    · simp only [segLabelAt]
      rw [if_neg (by omega : ¬(q < g.start)), if_neg (by omega : ¬(q ≤ g.stop))]
      exact segLabelAt_uncovered gs (g.stop + 1) hv.2.2.2 q
        (fun g' h' => hq g' (List.mem_cons_of_mem _ h'))

theorem validFrom_get_order : ∀ (f : List Seg) (p : ℕ), ValidFrom p f →
    ∀ (j k : ℕ) (hj : j < f.length) (hk : k < f.length), j < k →
      (f.get ⟨j, hj⟩).stop + 1 ≤ (f.get ⟨k, hk⟩).start
  | g :: gs, p, hv, 0, k + 1, hj, hk, _ => by
    have hb := validFrom_bounds gs (g.stop + 1) hv.2.2.2 (gs.get ⟨k, by simpa using hk⟩)
      (List.get_mem gs k _)
    simpa [List.get_cons_succ] using hb.1
  | g :: gs, p, hv, j + 1, k + 1, hj, hk, hjk => by
    have := validFrom_get_order gs (g.stop + 1) hv.2.2.2 j k (by simpa using hj)
      (by simpa using hk) (by omega)
    simpa [List.get_cons_succ] using this

theorem contains_iff_mem {l : List ℕ} {a : ℕ} : l.contains a = true ↔ a ∈ l := by
  rw [List.contains, List.elem_eq_mem]
  exact decide_eq_true_iff

theorem prevSeg_of_pos (f : List Seg) (k : ℕ) (hk1 : 1 ≤ k) (hkm1 : k - 1 < f.length) :
    prevSeg f k = some (f.get ⟨k - 1, hkm1⟩) := by
  rw [prevSeg, if_neg (by omega : ¬(k = 0)), List.getElem?_eq_getElem hkm1,
    List.get_eq_getElem]

theorem expand_pred_value (f : List Seg) (hvf : ValidFrom 0 f) (k : ℕ) (hk : k < f.length)
    (hs1 : 1 ≤ (f.get ⟨k, hk⟩).start) :
    (k = 0 → segLabelAt f ((f.get ⟨k, hk⟩).start - 1) = -1) ∧
    (∀ (hkm1 : k - 1 < f.length), 1 ≤ k →
      ((f.get ⟨k - 1, hkm1⟩).stop + 1 = (f.get ⟨k, hk⟩).start →
        segLabelAt f ((f.get ⟨k, hk⟩).start - 1) = (f.get ⟨k - 1, hkm1⟩).label) ∧
      ((f.get ⟨k - 1, hkm1⟩).stop + 1 ≠ (f.get ⟨k, hk⟩).start →
        segLabelAt f ((f.get ⟨k, hk⟩).start - 1) = -1)) := by
  have hbS := validFrom_bounds f 0 hvf (f.get ⟨k, hk⟩) (List.get_mem f k hk)
  constructor
  · intro hk0
    subst hk0
    apply segLabelAt_uncovered f 0 hvf
    intro g' hg'
    obtain ⟨⟨j, hj⟩, rfl⟩ := List.mem_iff_get.mp hg'
    left
    rcases Nat.eq_zero_or_pos j with hj0 | hj1
    · subst hj0
      have heq : f.get ⟨0, hj⟩ = f.get ⟨0, hk⟩ := rfl
      rw [heq]
      omega
    · have hord := validFrom_get_order f 0 hvf 0 j hk hj hj1
      have h2 := hbS.2.1
      omega
  · intro hkm1 hk1
    have hbP := validFrom_bounds f 0 hvf (f.get ⟨k - 1, hkm1⟩) (List.get_mem f (k - 1) hkm1)
    have hordPk := validFrom_get_order f 0 hvf (k - 1) k hkm1 hk (by omega)
    constructor
    · intro hcont
      apply segLabelAt_mem f 0 hvf (f.get ⟨k - 1, hkm1⟩) (List.get_mem f (k - 1) hkm1)
      · have := hbP.2.1
        omega
      · omega
    · intro hgapcond
      apply segLabelAt_uncovered f 0 hvf
      intro g' hg'
      obtain ⟨⟨j, hj⟩, rfl⟩ := List.mem_iff_get.mp hg'
      rcases lt_trichotomy j k with hjk | hjk | hjk
      · right
        rcases Nat.lt_or_ge j (k - 1) with hjlt | hjge
        · have hord1 := validFrom_get_order f 0 hvf j (k - 1) hj hkm1 hjlt
          have := hbP.2.1
          omega
        · have hjeq : j = k - 1 := by omega
          have heq : f.get ⟨j, hj⟩ = f.get ⟨k - 1, hkm1⟩ := by
            subst hjeq
            rfl
          rw [heq]
          omega
      · left
        have heq : f.get ⟨j, hj⟩ = f.get ⟨k, hk⟩ := by
          subst hjk
          rfl
        rw [heq]
        omega
      · left
        have hord := validFrom_get_order f 0 hvf k j hk hj hjk
        have h2 := hbS.2.1
        omega

/-- C5, amended.  For every well-formed nonempty segment frame — ordered
rows with positive labels that fit in int32, so the code's
`astype("int32")` casts leave them unchanged (labels at or above `2^31`
wrap and behave differently, see `segments_wrap_merge` and
`segments_wrap_negative`) — `segments_to_change_points` returns without
error, its output never contains position 0, and it contains the start of
a segment exactly when that start is nonzero and the segment is not
contiguously preceded by a segment with the same label (the same-label
exception forced by the counterexample with labels `[1,1]`, starts
`[0,3]`, ends `[2,5]`). -/
theorem segments_to_change_points_starts (f : List Seg) (hv : ValidSegs f) (hne : f ≠ []) :
    exceptOk (segmentsToChangePoints f) = true ∧
    cpContains f 0 = false ∧
    ∀ (k : ℕ) (hk : k < f.length),
      (cpContains f ((f.get ⟨k, hk⟩).start) = true ↔
        ((f.get ⟨k, hk⟩).start ≠ 0 ∧
          ∀ g' ∈ prevSeg f k,
            ¬(g'.stop + 1 = (f.get ⟨k, hk⟩).start ∧
              g'.label = (f.get ⟨k, hk⟩).label))) := by
  have hvf : ValidFrom 0 f := validSegs_validFrom f 0 hv.1 hv.2 (fun g₀ _ => Nat.zero_le _)
  have hbridge := denseSeg_eq_expand f hvf hne
  have hout : segmentsToChangePoints f = Except.ok
      ((List.range (expandFrom 0 f).length).filter
        (fun i => !(i == 0) &&
          !((expandFrom 0 f).getD i 0 == (expandFrom 0 f).getD (i - 1) 0))) := by
    simp only [segmentsToChangePoints, hbridge]
  have hlen : (expandFrom 0 f).length = cursorAfter 0 f := by
    rw [expandFrom_length f 0 hvf]
    omega
  refine ⟨by rw [hout]; rfl, ?_, ?_⟩
  · simp only [cpContains, hout]
    have h0 : (0 : ℕ) ∉ (List.range (expandFrom 0 f).length).filter
        (fun i => !(i == 0) &&
          !((expandFrom 0 f).getD i 0 == (expandFrom 0 f).getD (i - 1) 0)) := by
      intro hmem
      have := (List.mem_filter.mp hmem).2
      simp at this
    exact Bool.eq_false_iff.mpr (fun hc => h0 (contains_iff_mem.mp hc))
  · intro k hk
    have hmemS : f.get ⟨k, hk⟩ ∈ f := List.get_mem f k hk
    have hbS := validFrom_bounds f 0 hvf _ hmemS
    have hstart_lt : (f.get ⟨k, hk⟩).start < cursorAfter 0 f := by
      have h1 := hbS.2.1
      have h2 := hbS.2.2.2
      omega
    have hdS : (expandFrom 0 f).getD (f.get ⟨k, hk⟩).start 0 = (f.get ⟨k, hk⟩).label := by
      have hgd := expand_getD f 0 hvf (f.get ⟨k, hk⟩).start (by omega)
      rw [Nat.zero_add] at hgd
      rw [hgd]
      exact segLabelAt_mem f 0 hvf _ hmemS _ le_rfl hbS.2.1
    simp only [cpContains, hout]
    rw [contains_iff_mem, List.mem_filter, List.mem_range, hlen]
    simp only [Bool.and_eq_true, Bool.not_eq_true', beq_eq_false_iff_ne, ne_eq]
    constructor
    · rintro ⟨hrange, hs0, hneq⟩
      refine ⟨hs0, ?_⟩
      rintro g' hg' ⟨hcont, hlab⟩
      have hk1 : 1 ≤ k := by
        by_contra hkk
        have hk0 : k = 0 := by omega
        rw [hk0] at hg'
        simp [prevSeg] at hg'
      have hkm1 : k - 1 < f.length := by omega
      rw [prevSeg_of_pos f k hk1 hkm1] at hg'
      have hg'eq : g' = f.get ⟨k - 1, hkm1⟩ := (Option.some.inj (Option.mem_def.mp hg')).symm
      subst hg'eq
      have hs1 : 1 ≤ (f.get ⟨k, hk⟩).start := by omega
      have hval := ((expand_pred_value f hvf k hk hs1).2 hkm1 hk1).1 hcont
      have hgd := expand_getD f 0 hvf ((f.get ⟨k, hk⟩).start - 1) (by omega)
      rw [Nat.zero_add] at hgd
      apply hneq
      rw [hdS, hgd, hval]
      exact hlab.symm
    · rintro ⟨hs0, hprev⟩
      have hs1 : 1 ≤ (f.get ⟨k, hk⟩).start := by omega
      refine ⟨hstart_lt, hs0, ?_⟩
      have hgd := expand_getD f 0 hvf ((f.get ⟨k, hk⟩).start - 1) (by omega)
      rw [Nat.zero_add] at hgd
      rw [hdS, hgd]
      have hlabpos := hbS.2.2.1
      rcases Nat.eq_zero_or_pos k with hk0 | hk1
      · have hval := (expand_pred_value f hvf k hk hs1).1 hk0
        rw [hval]
        omega
      · have hkm1 : k - 1 < f.length := by omega
        by_cases hcont : (f.get ⟨k - 1, hkm1⟩).stop + 1 = (f.get ⟨k, hk⟩).start
        · have hval := ((expand_pred_value f hvf k hk hs1).2 hkm1 hk1).1 hcont
          rw [hval]
          have hne' := hprev (f.get ⟨k - 1, hkm1⟩)
            (by rw [prevSeg_of_pos f k hk1 hkm1]; rfl)
          intro habs
          exact hne' ⟨hcont, habs.symm⟩
        · have hval := ((expand_pred_value f hvf k hk hs1).2 hkm1 hk1).2 hcont
          rw [hval]
          omega

theorem segments_to_change_points_starts_witness :
    cpContains [⟨1, 0, 2⟩, ⟨2, 3, 5⟩] 3 = true := by
  have h := (segments_to_change_points_starts [⟨1, 0, 2⟩, ⟨2, 3, 5⟩]
    ⟨by decide, List.chain'_cons.mpr ⟨by decide, List.chain'_singleton _⟩⟩
    (by decide)).2.2 1 (by decide)
  refine h.mpr ⟨by decide, ?_⟩
  intro g' hg'
  rw [prevSeg_of_pos _ 1 (by decide) (by decide)] at hg'
  have hg'eq : g' = (⟨1, 0, 2⟩ : Seg) := (Option.some.inj (Option.mem_def.mp hg')).symm
  subst hg'eq
  decide

/-- Int32 wrap, merge case: the label `2^32 + 1` casts to int32 `1`, so a
segment labelled `2^32 + 1` contiguous with a segment labelled `1` merges
with it in the dense series and its start 3 yields no change point. -/
theorem segments_wrap_merge :
    segmentsToChangePoints [⟨1, 0, 2⟩, ⟨2 ^ 32 + 1, 3, 5⟩] = Except.ok [] := by decide

/-- Int32 wrap, negative case: the label `2^31` casts to int32 `-2^31`,
so the whole segment is clamped to `-1` like its surrounding gap and its
start 2 yields no change point. -/
theorem segments_wrap_negative :
    segmentsToChangePoints [⟨2 ^ 31, 2, 4⟩] = Except.ok [] := by decide
